import Mathlib

/-
Verification development for the seag-cprs CPRS decompressor (src/main.c).

Shallow-embedding conventions, applied uniformly when translating the C:
* unsigned 32-bit words are `Nat` values; `x >> k` is `x / 2 ^ k`,
  `x & ((1 << k) - 1)` (also `x & 3`, `x & 0xf`, `x & 0xff`) is `x % 2 ^ k`,
  the 32-bit result of `x << k` is `x * 2 ^ k % 2 ^ 32`, and `x | y` is
  `Nat.lor`;
* the `int8_t remainingShifts` counter is an `Int` (its values stay far
  inside the int8 range while decoding, so int8 wraparound never occurs);
* a `uint8_t` store keeps the low 8 bits (`% 256`);
* the output buffer is byte-addressed memory `Nat → Nat`, zero everywhere
  before decoding starts (`malloc` followed by `memset`), and is written
  through 32-bit little-endian word commits exactly as the C does;
* the payload read `*readCursor++` is fallible: at the end of the payload
  (words 5 .. N-2 of the container, spec section 3) the reader stops with a
  corrupt-stream failure, the hardened behaviour prescribed by spec section
  4.1 for the read that the legacy C performs with no bounds check at all;
  likewise a back-reference whose source would lie before the start of the
  output buffer stops with the same failure.
-/

def CPRS_SIG : Nat := 0x53525043

def CPRS_TERM : Nat := 0x10002

/-- The 192-word constant table from src/main.c lines 249-298, verbatim. -/
def CPRS_TABLE : List Nat := [
  0x00000001, 0x00000003, 0x00000000, 0x00000001,
  0x00000001, 0x00000003, 0x00000002, 0x00000003,
  0x00000003, 0x00000005, 0x00000004, 0x0000000b,
  0x00000008, 0x0000000a, 0x0000000c, 0x0000010a,
  0x00000002, 0x00000006, 0x00000000, 0x00000003,
  0x00000002, 0x00000006, 0x00000004, 0x00000007,
  0x00000002, 0x00000006, 0x00000008, 0x0000000b,
  0x00000003, 0x00000007, 0x0000000c, 0x00000013,
  0x00000004, 0x00000008, 0x00000014, 0x00000023,
  0x00000005, 0x00000009, 0x00000024, 0x00000043,
  0x00000006, 0x0000000a, 0x00000044, 0x00000083,
  0x00000007, 0x0000000b, 0x00000084, 0x00000103,
  0x00000008, 0x0000000c, 0x00000104, 0x00000203,
  0x00000009, 0x0000000d, 0x00000204, 0x00000403,
  0x0000000a, 0x0000000e, 0x00000404, 0x00000803,
  0x0000000b, 0x0000000f, 0x00000804, 0x00001003,
  0x0000000c, 0x00000010, 0x00001004, 0x00002003,
  0x0000000d, 0x00000011, 0x00002004, 0x00004003,
  0x0000000e, 0x00000012, 0x00004004, 0x00008003,
  0x0000000f, 0x00000013, 0x00008004, 0x00010002,
  0x00000001, 0x00000002, 0x00000004, 0x00000008,
  0x00000010, 0x00000020, 0x00000040, 0x00000080,
  0x00000100, 0x00000200, 0x00000400, 0x00000800,
  0x00001000, 0x00002000, 0x00004000, 0x00008000,
  0x00010000, 0x00020000, 0x00040000, 0x00080000,
  0x00000009, 0x00000012, 0x00000024, 0x00000048,
  0x00000090, 0x00000120, 0x00000240, 0x00000480,
  0x00000900, 0x00001200, 0x00002400, 0x00004800,
  0x00000001, 0x00009000, 0x00002490, 0x00010900,
  0x00004349, 0x00000091, 0x00019024, 0x00002599,
  0x00051941, 0x0005d34b, 0x00004101, 0x00008001,
  0x0000b080, 0x00082c94, 0x00014308, 0x0004d183,
  0x000880b5, 0x0003f8ad, 0x000cadd5, 0x0004f7db,
  0x00010901, 0x0000d349, 0x00002401, 0x00009924,
  0x000066d0, 0x000519d0, 0x0004436f, 0x00006498,
  0x00059940, 0x000563cb, 0x00086d95, 0x0001c309,
  0x00000000, 0x00c602b5, 0x018c016b, 0x01ce037b,
  0x02940021, 0x01290042, 0x01ad0231, 0x02520084,
  0x031802d6, 0x0210014a, 0x039c02f7, 0x027303de,
  0x03bd00e7, 0x035a0063, 0x01ef0339, 0x00a50108,
  0x015502aa, 0x0372025b, 0x00b702e5, 0x00100200,
  0x01f602cf, 0x019f03ec, 0x039602dc, 0x03d9033e,
  0x01cb016e, 0x00fb0367, 0x00010020, 0x00040080,
  0x00080100, 0x01b9032d, 0x00020040, 0x027d03b3,
  0x021d0160, 0x03b0000b, 0x00240111, 0x00810228,
  0x0335019b, 0x02b9036c, 0x02d500b6, 0x02b602c5,
  0x01e30185, 0x006f00ac, 0x03b502a2, 0x02bd0055,
  0x02690192, 0x0133024c, 0x02f501f4, 0x02b7028f]

/-- Word lookup `CPRS_TABLE[i]`. -/
def tbl (i : Nat) : Nat := CPRS_TABLE.getD i 0

/-- Byte `i` (little-endian) of the 32-bit word `w`. -/
def getByte (w i : Nat) : Nat := w / 2 ^ (8 * i) % 256

/-- The store `*(uint8_t*)((size_t)&w + lane) = b` on a little-endian
32-bit word: replace byte `lane` of `w` by the low 8 bits of `b`. -/
def setByte (w lane b : Nat) : Nat :=
  w % 2 ^ (8 * lane) + b % 256 * 2 ^ (8 * lane) + 2 ^ (8 * lane + 8) * (w / 2 ^ (8 * lane + 8))

/-- The store `*writeCursor = v` of a 32-bit word at word position `w` of the
byte-addressed output memory. -/
def commitWord (buf : Nat → Nat) (w v : Nat) : Nat → Nat :=
  fun p => if p / 4 = w then getByte v (p % 4) else buf p

/-- The mutable locals of `decompress` (src/main.c lines 149-169), with the
output buffer inlined as byte-addressed memory. -/
structure DState where
  alpha : Nat
  beta : Nat
  remainingShifts : Int
  readCursor : Nat
  buffer : Nat → Nat
  currentValue : Nat
  index : Nat
  writeCursor : Nat
  writeCarryByte : Nat

/-- Outcome of one trip through the body of the decode loop, up to but not
including the bit-window refill at lines 231-237. -/
inductive EmitRes where
  | next (readCarryByte : Nat) (s : DState)
  | sentinel (s : DState)
  | oobCopy

/-- Result of `decompress`. -/
inductive DRes where
  | ok (size : Nat) (buffer : Nat → Nat)
  | corrupt
  | fuelOut
  | formatErr

/-- `uVar9`, src/main.c line 187: `CPRS_TABLE[(alpha >> 1 & 3) * 0x04]`. -/
def primShift (alpha : Nat) : Nat := tbl ((alpha / 2 % 4) * 4)

/-- First `uVar1`, line 188: `(alpha >> 3) >> (uVar9 & 0xff)`. -/
def codedRest (alpha : Nat) : Nat := (alpha / 8) / 2 ^ (primShift alpha % 256)

/-- Second `uVar1`, lines 190-191: `*puVar2` with
`puVar2 = &CPRS_TABLE[(uVar1 & 0xf) * 0x04 + 0x10]`. -/
def secShift (alpha : Nat) : Nat := tbl ((codedRest alpha % 16) * 4 + 16)

/-- `iVar7`, line 194: `puVar2[2] + ((1 << (uVar1 & 0xff)) - 1U & uVar5)`
with `uVar5 = uVar1 >> 4`. -/
def codedSym (alpha : Nat) : Nat :=
  tbl ((codedRest alpha % 16) * 4 + 16 + 2) + (codedRest alpha / 16) % 2 ^ (secShift alpha % 256)

/-- `iVar6`, lines 198-200: `CPRS_TABLE[(alpha >> 1 & 3) * 0x04 + 2] +
((1 << (uVar9 & 0xff)) - 1U & alpha >> 3) + ((int)(puVar2[1] + 0xb) >> 3)`. -/
def codedCount (alpha : Nat) : Nat :=
  tbl ((alpha / 2 % 4) * 4 + 2) + (alpha / 8) % 2 ^ (primShift alpha % 256)
    + (tbl ((codedRest alpha % 16) * 4 + 16 + 1) + 11) / 8

/-- `readCarryByte` of the coded path, line 192: `uVar5 >> (uVar1 & 0xff)`. -/
def codedRcb (alpha : Nat) : Nat :=
  (codedRest alpha / 16) / 2 ^ (secShift alpha % 256)

/-- Emit one byte: the lane store into `currentValue` plus the conditional
word commit, the pattern repeated at src/main.c lines 178-185, 203-210 and
219-226. `index` is incremented; `writeCarryByte` is left alone. -/
def emitByte (s : DState) (b : Nat) : DState :=
  let lane := s.index % 4
  let cv := setByte s.currentValue lane b
  if (s.index + 1) % 4 = 0 then
    { s with currentValue := 0, index := s.index + 1,
             buffer := commitWord s.buffer s.writeCursor cv,
             writeCursor := s.writeCursor + 1 }
  else
    { s with currentValue := cv, index := s.index + 1 }

/-- The run-length loop `while (iVar6--)`, src/main.c lines 202-211: emit
`n` copies of `writeCarryByte`. -/
def runEmit : Nat → DState → DState
  | 0, s => s
  | n + 1, s => runEmit n (emitByte s s.writeCarryByte)

/-- One iteration of the back-reference loop body, src/main.c lines 214-226:
first flush the pending word when the copy distance is below one word and the
accumulator is partially filled (line 215-217), then read `start[i]` from the
output memory, record it as `writeCarryByte` (line 218) and emit it. -/
def copyStep (start twoSym i : Nat) (s : DState) : DState :=
  let s1 := if twoSym < 4 ∧ s.index % 4 ≠ 0
    then { s with buffer := commitWord s.buffer s.writeCursor s.currentValue }
    else s
  let b := s1.buffer (start + i)
  emitByte { s1 with writeCarryByte := b } b

/-- The back-reference loop, src/main.c lines 213-227.  `start` is the byte
offset `index - iVar7 * 2` fixed at loop entry, `twoSym` is `iVar7 * 2`, the
first `Nat` argument the remaining iteration count and the second the loop
counter `i`. -/
def copyLoop (start twoSym : Nat) : Nat → Nat → DState → DState
  | 0, _, s => s
  | n + 1, i, s => copyLoop start twoSym n (i + 1) (copyStep start twoSym i s)

/-- One trip through the body of the decode loop (src/main.c lines 174-229),
stopping before the refill.  The `.oobCopy` outcome covers the back-reference
whose source `buffer + index - iVar7 * 2` lies before the output buffer,
which the legacy C dereferences without any check. -/
def emitStep (s : DState) : EmitRes :=
  if s.alpha % 2 = 0 then
    EmitRes.next (s.alpha / 2 ^ 9)
      (emitByte { s with remainingShifts := s.remainingShifts - 9,
                         writeCarryByte := s.alpha / 2 % 256 } (s.alpha / 2 % 256))
  else if CPRS_TERM ≤ codedSym s.alpha then
    EmitRes.sentinel
      { s with remainingShifts :=
          s.remainingShifts - (primShift s.alpha + 7 + secShift s.alpha : Nat) }
  else if codedSym s.alpha = 0 then
    EmitRes.next (codedRcb s.alpha)
      (runEmit (codedCount s.alpha)
        { s with remainingShifts :=
            s.remainingShifts - (primShift s.alpha + 7 + secShift s.alpha : Nat) })
  else if 2 * codedSym s.alpha ≤ s.index then
    EmitRes.next (codedRcb s.alpha)
      (copyLoop (s.index - 2 * codedSym s.alpha) (2 * codedSym s.alpha)
        (codedCount s.alpha) 0
        { s with remainingShifts :=
            s.remainingShifts - (primShift s.alpha + 7 + secShift s.alpha : Nat) })
  else EmitRes.oobCopy

/-- The bit-window refill and window rebuild, src/main.c lines 231-237.
`none` models the read past the last payload word, which the legacy C
performs unchecked and which spec section 4.1 hardens into a corrupt-stream
failure. -/
def refill (payload : List Nat) (readCarryByte : Nat) (s : DState) : Option DState :=
  if s.remainingShifts < 0 then
    let rs := s.remainingShifts + 32
    match payload.get? s.readCursor with
    | none => none
    | some w =>
      some { s with
              remainingShifts := rs
              beta := w
              readCursor := s.readCursor + 1
              alpha := (w * 2 ^ rs.toNat % 2 ^ 32) ||| s.beta / 2 ^ (32 - rs).toNat }
  else
    some { s with alpha := (s.beta * 2 ^ s.remainingShifts.toNat % 2 ^ 32) ||| readCarryByte }

/-- The `while (1)` decode loop, fuel-indexed.  On the sentinel it performs
the final partial-word commit of src/main.c lines 240-242 and returns
`index` (lines 243-245). -/
def runLoop (payload : List Nat) : Nat → DState → DRes
  | 0, _ => DRes.fuelOut
  | fuel + 1, s =>
    match emitStep s with
    | EmitRes.sentinel s1 =>
      DRes.ok s1.index
        (if s1.index % 4 ≠ 0
         then commitWord s1.buffer s1.writeCursor s1.currentValue
         else s1.buffer)
    | EmitRes.oobCopy => DRes.corrupt
    | EmitRes.next rcb s1 =>
      match refill payload rcb s1 with
      | none => DRes.corrupt
      | some s2 => runLoop payload fuel s2

/-- The decoder state at loop entry, src/main.c lines 146-158.  `junkByte`
is the value of the uninitialized local `writeCarryByte` (line 169). -/
def startState (data : List Nat) (junkByte : Nat) : DState :=
  { alpha := data.getD 3 0, beta := data.getD 4 0, remainingShifts := 32,
    readCursor := 0, buffer := fun _ => 0, currentValue := 0, index := 0,
    writeCursor := 0, writeCarryByte := junkByte }

/-- The payload words of the container: words 5 .. N-2, excluding the
trailing signature word (spec section 3). -/
def payloadWords (data : List Nat) (sizeBytes : Nat) : List Nat :=
  (data.take (sizeBytes / 4 - 1)).drop 5

/-- `decompress` (src/main.c lines 125-247): container validation followed by
the decode loop.  `data` is the buffer viewed as 32-bit words and `sizeBytes`
its byte length, as in the C signature.  The fuel `4 * |payload| + 6`
strictly exceeds the number of loop trips the bit supply allows, which the
termination theorem below makes precise. -/
def decompress (data : List Nat) (sizeBytes : Nat) (junkByte : Nat) : DRes :=
  if sizeBytes % 4 ≠ 0 then DRes.formatErr
  else if sizeBytes / 4 ≤ 5 then DRes.formatErr
  else if data.getD 0 0 ≠ CPRS_SIG ∨ data.getD (sizeBytes / 4 - 1) 0 ≠ CPRS_SIG then
    DRes.formatErr
  else
    runLoop (payloadWords data sizeBytes)
      (4 * (payloadWords data sizeBytes).length + 6) (startState data junkByte)

/-- The decompressed byte stream, when `decompress` succeeds. -/
def decompressBytes (data : List Nat) (sizeBytes junkByte : Nat) : Option (List Nat) :=
  match decompress data sizeBytes junkByte with
  | DRes.ok n buf => some ((List.range n).map buf)
  | _ => none

def DRes.isFormatErr : DRes → Bool
  | DRes.formatErr => true
  | _ => false

def DRes.isFuelOut : DRes → Bool
  | DRes.fuelOut => true
  | _ => false

def DRes.isOk : DRes → Bool
  | DRes.ok _ _ => true
  | _ => false

def DRes.sizeOut : DRes → Option Nat
  | DRes.ok n _ => some n
  | _ => none

/-- A four-word parameter row of the Code Table, as described in spec
sections 2 and 4.2. -/
structure TableRow where
  col0 : Nat
  col1 : Nat
  col2 : Nat
  col3 : Nat

/-- Row `i` of the Code Table (four consecutive words). -/
def tableRow (i : Nat) : TableRow := ⟨tbl (4 * i), tbl (4 * i + 1), tbl (4 * i + 2), tbl (4 * i + 3)⟩

/-- Spec 4.2 step 1: the primary row, selected by bits [1..2] of the
window (2-bit index into the first 4 rows). -/
def spec_primaryRow (window : Nat) : TableRow := tableRow (window / 2 % 4)

/-- Spec 4.2 step 1: `codeLenA` is column 0 of the primary row. -/
def spec_codeLenA (window : Nat) : Nat := (spec_primaryRow window).col0

/-- Spec 4.2 step 2: shift the window right by 3 bits, then right again by
`codeLenA` bits, producing `rest`. -/
def spec_rest (window : Nat) : Nat := (window / 2 ^ 3) / 2 ^ spec_codeLenA window

/-- Spec 4.2 step 3: the secondary row, selected by the low 4 bits of
`rest` from the block of 16 rows starting at row 4. -/
def spec_secondaryRow (window : Nat) : TableRow := tableRow (4 + spec_rest window % 16)

/-- Spec 4.2 step 3: `codeLenB` is column 0 of the secondary row. -/
def spec_codeLenB (window : Nat) : Nat := (spec_secondaryRow window).col0

/-- Spec 4.2 step 4: `high = rest >> 4`. -/
def spec_high (window : Nat) : Nat := spec_rest window / 2 ^ 4

/-- Spec 4.2 step 5: `sym = secondaryRow.col2 + (high & ((1<<codeLenB)-1))`. -/
def spec_sym (window : Nat) : Nat :=
  (spec_secondaryRow window).col2 + spec_high window % 2 ^ spec_codeLenB window

/-- Spec 4.2 step 6: `count = primaryRow.col2 + ((window>>3) & ((1<<codeLenA)-1))
+ ((secondaryRow.col1 + 11) >> 3)`. -/
def spec_count (window : Nat) : Nat :=
  (spec_primaryRow window).col2 + (window / 2 ^ 3) % 2 ^ spec_codeLenA window
    + ((spec_secondaryRow window).col1 + 11) / 8

/-- Spec 4.2 step 4: total bits consumed in a coded step,
`codeLenA + 7 + codeLenB`. -/
def spec_bits (window : Nat) : Nat := spec_codeLenA window + 7 + spec_codeLenB window

/-- Container structural validity, spec section 3: total byte length a
multiple of 4, word count exceeding 5, first and last words equal to the
signature. -/
def structValid (data : List Nat) (sizeBytes : Nat) : Prop :=
  sizeBytes % 4 = 0 ∧ 5 < sizeBytes / 4 ∧
    data.getD 0 0 = CPRS_SIG ∧ data.getD (sizeBytes / 4 - 1) 0 = CPRS_SIG

instance (data : List Nat) (sizeBytes : Nat) : Decidable (structValid data sizeBytes) := by
  unfold structValid; infer_instance

/-- The refill rule exactly as C6 written per the spec's words states it: on a
negative counter, add 32, carry the old lookahead's bits shifted down by
`32 - counter`, and rebuild the window from THE OLD lookahead shifted left
by the counter. -/
def refillClaimWindow (oldBeta : Nat) (counter : Int) : Nat :=
  (oldBeta <<< counter.toNat % 2 ^ 32) ||| oldBeta >>> (32 - counter).toNat

/-- The refill rule of spec section 4.1 with the window rebuilt from the
newly loaded word: on a negative counter, add 32 to it, take the carry
`lookahead >> (32 - counter)` from the old lookahead, load the lookahead
from the next payload word advancing the cursor, and set the window to the
new lookahead shifted left by the counter OR the carry; on a non-negative
counter, rebuild the window as `(lookahead << counter) | leftover` without
touching the cursor. -/
def refillSpec (payload : List Nat) (leftover : Nat) (s : DState) : Option DState :=
  if s.remainingShifts < 0 then
    let counter := s.remainingShifts + 32
    let carry := s.beta >>> (32 - counter).toNat
    match payload.get? s.readCursor with
    | none => none
    | some w =>
      some { s with
              remainingShifts := counter
              beta := w
              readCursor := s.readCursor + 1
              alpha := (w <<< counter.toNat % 2 ^ 32) ||| carry }
  else
    some { s with alpha := (s.beta <<< s.remainingShifts.toNat % 2 ^ 32) ||| leftover }

/-- Well-formedness of a decoder state: the word write cursor sits at the
word containing `index`, and the output memory holds bytes. -/
def StInv (s : DState) : Prop :=
  s.writeCursor = s.index / 4 ∧ ∀ p, s.buffer p < 256

/-- The byte at position `p` of the output as assembled so far: committed
positions read the output memory, positions at or beyond the committed
prefix read the lane of the pending accumulator word. -/
def viewByte (s : DState) (p : Nat) : Nat :=
  if p < 4 * s.writeCursor then s.buffer p else getByte s.currentValue (p % 4)

theorem getByte_lt (w i : Nat) : getByte w i < 256 :=
  Nat.mod_lt _ (by norm_num)

theorem getByte_setByte_eq (w b lane : Nat) (h : lane < 4) :
    getByte (setByte w lane b) lane = b % 256 := by
  interval_cases lane <;> simp only [getByte, setByte] <;> norm_num <;> omega

theorem getByte_setByte_ne (w b lane i : Nat) (hl : lane < 4) (hi : i < 4) (hne : i ≠ lane) :
    getByte (setByte w lane b) i = getByte w i := by
  interval_cases lane <;> interval_cases i <;> simp only [getByte, setByte] <;> norm_num <;> omega

theorem emitByte_alpha (s : DState) (b : Nat) : (emitByte s b).alpha = s.alpha := by
  unfold emitByte; split <;> rfl

theorem emitByte_beta (s : DState) (b : Nat) : (emitByte s b).beta = s.beta := by
  unfold emitByte; split <;> rfl

theorem emitByte_rs (s : DState) (b : Nat) :
    (emitByte s b).remainingShifts = s.remainingShifts := by
  unfold emitByte; split <;> rfl

theorem emitByte_rc (s : DState) (b : Nat) : (emitByte s b).readCursor = s.readCursor := by
  unfold emitByte; split <;> rfl

theorem emitByte_wcb (s : DState) (b : Nat) :
    (emitByte s b).writeCarryByte = s.writeCarryByte := by
  unfold emitByte; split <;> rfl

theorem emitByte_index (s : DState) (b : Nat) : (emitByte s b).index = s.index + 1 := by
  unfold emitByte; split <;> rfl

theorem emitByte_inv (s : DState) (b : Nat) (h : StInv s) : StInv (emitByte s b) := by
  obtain ⟨h1, h2⟩ := h
  unfold emitByte
  split
  · rename_i hc
    refine ⟨?_, ?_⟩
    · show s.writeCursor + 1 = (s.index + 1) / 4
      omega
    · intro p
      show commitWord s.buffer s.writeCursor _ p < 256
      unfold commitWord
      split
      · exact getByte_lt _ _
      · exact h2 p
  · rename_i hc
    refine ⟨?_, h2⟩
    show s.writeCursor = (s.index + 1) / 4
    omega

theorem viewByte_emitByte_last (s : DState) (b : Nat) (h : StInv s) :
    viewByte (emitByte s b) s.index = b % 256 := by
  obtain ⟨h1, _⟩ := h
  unfold emitByte
  split
  · rename_i hc
    show viewByte _ s.index = b % 256
    unfold viewByte
    have hlt : s.index < 4 * (s.writeCursor + 1) := by omega
    simp only [hlt, if_pos]
    show commitWord s.buffer s.writeCursor _ s.index = b % 256
    unfold commitWord
    have hidx : s.index / 4 = s.writeCursor := by omega
    simp only [hidx, if_pos]
    exact getByte_setByte_eq _ _ _ (by omega)
  · rename_i hc
    show viewByte _ s.index = b % 256
    unfold viewByte
    have hge : ¬ s.index < 4 * s.writeCursor := by omega
    simp only [hge, if_neg, if_false]
    exact getByte_setByte_eq _ _ _ (by omega)

theorem viewByte_emitByte_prev (s : DState) (b : Nat) (h : StInv s)
    (p : Nat) (hp : p < s.index) :
    viewByte (emitByte s b) p = viewByte s p := by
  obtain ⟨h1, _⟩ := h
  unfold emitByte
  split
  · rename_i hc
    show viewByte _ p = viewByte s p
    unfold viewByte
    have hlt : p < 4 * (s.writeCursor + 1) := by omega
    simp only [hlt, if_pos]
    show commitWord s.buffer s.writeCursor _ p = _
    unfold commitWord
    by_cases hw : p / 4 = s.writeCursor
    · simp only [hw, if_pos]
      have hnp : ¬ p < 4 * s.writeCursor := by omega
      simp only [hnp, if_neg, if_false]
      exact getByte_setByte_ne _ _ _ _ (by omega) (by omega) (by omega)
    · simp only [hw, if_neg, if_false]
      have hpp : p < 4 * s.writeCursor := by omega
      simp only [hpp, if_pos]
  · rename_i hc
    show viewByte _ p = viewByte s p
    unfold viewByte
    by_cases hw : p < 4 * s.writeCursor
    · simp only [hw, if_pos]
    · simp only [hw, if_neg, if_false]
      exact getByte_setByte_ne _ _ _ _ (by omega) (by omega) (by omega)

theorem runEmit_spec (n : Nat) : ∀ s : DState, StInv s →
    StInv (runEmit n s) ∧
    (runEmit n s).index = s.index + n ∧
    (runEmit n s).alpha = s.alpha ∧
    (runEmit n s).beta = s.beta ∧
    (runEmit n s).remainingShifts = s.remainingShifts ∧
    (runEmit n s).readCursor = s.readCursor ∧
    (runEmit n s).writeCarryByte = s.writeCarryByte ∧
    (∀ p, p < s.index → viewByte (runEmit n s) p = viewByte s p) ∧
    (∀ i, i < n → viewByte (runEmit n s) (s.index + i) = s.writeCarryByte % 256) := by
  induction n with
  | zero =>
    intro s h
    exact ⟨h, rfl, rfl, rfl, rfl, rfl, rfl, fun p _ => rfl, fun i hi => absurd hi (by omega)⟩
  | succ n ih =>
    intro s h
    have hstep : runEmit (n + 1) s = runEmit n (emitByte s s.writeCarryByte) := rfl
    have h1 := emitByte_inv s s.writeCarryByte h
    obtain ⟨i1, i2, i3, i4, i5, i6, i7, iprev, icop⟩ := ih (emitByte s s.writeCarryByte) h1
    rw [hstep]
    have hidx := emitByte_index s s.writeCarryByte
    have hwcb := emitByte_wcb s s.writeCarryByte
    refine ⟨i1, by omega, by rw [i3, emitByte_alpha], by rw [i4, emitByte_beta],
      by rw [i5, emitByte_rs], by rw [i6, emitByte_rc], by rw [i7, hwcb], ?_, ?_⟩
    · intro p hp
      rw [iprev p (by omega), viewByte_emitByte_prev s _ h p hp]
    · intro i hi
      match i with
      | 0 =>
        rw [Nat.add_zero, iprev s.index (by omega), viewByte_emitByte_last s _ h]
      | Nat.succ j =>
        have : s.index + (j + 1) = (emitByte s s.writeCarryByte).index + j := by omega
        rw [this, icop j (by omega), hwcb]

theorem viewByte_lt (s : DState) (h : ∀ p, s.buffer p < 256) (p : Nat) :
    viewByte s p < 256 := by
  unfold viewByte
  split
  · exact h p
  · exact getByte_lt _ _

theorem flush_view (s : DState) (h : StInv s) :
    StInv { s with buffer := commitWord s.buffer s.writeCursor s.currentValue } ∧
    (∀ p, viewByte { s with buffer := commitWord s.buffer s.writeCursor s.currentValue } p
        = viewByte s p) ∧
    (∀ p, p < s.index → commitWord s.buffer s.writeCursor s.currentValue p = viewByte s p) := by
  obtain ⟨h1, h2⟩ := h
  refine ⟨⟨h1, ?_⟩, ?_, ?_⟩
  · intro p
    show commitWord s.buffer s.writeCursor s.currentValue p < 256
    unfold commitWord
    split
    · exact getByte_lt _ _
    · exact h2 p
  · intro p
    show (if p < 4 * s.writeCursor then commitWord s.buffer s.writeCursor s.currentValue p
          else getByte s.currentValue (p % 4)) = viewByte s p
    unfold viewByte commitWord
    by_cases hp : p < 4 * s.writeCursor
    · simp only [hp, if_pos]
      have : ¬ p / 4 = s.writeCursor := by omega
      simp only [this, if_neg, if_false]
    · simp only [hp, if_neg, if_false]
  · intro p hp
    unfold commitWord viewByte
    by_cases hw : p / 4 = s.writeCursor
    · have : ¬ p < 4 * s.writeCursor := by omega
      simp only [hw, if_pos, this, if_neg, if_false]
    · have : p < 4 * s.writeCursor := by omega
      simp only [hw, if_neg, if_false, this, if_pos]

theorem buffer_view (s : DState) (h : StInv s) (p : Nat)
    (hcase : p + 4 ≤ s.index ∨ (p < s.index ∧ s.index % 4 = 0)) :
    s.buffer p = viewByte s p := by
  obtain ⟨h1, _⟩ := h
  unfold viewByte
  have : p < 4 * s.writeCursor := by omega
  simp only [this, if_pos]

theorem copyStep_spec (start twoSym i : Nat) (htwo : 0 < twoSym) (s : DState)
    (hInv : StInv s) (hidx : s.index = start + twoSym + i) :
    StInv (copyStep start twoSym i s) ∧
    (copyStep start twoSym i s).index = s.index + 1 ∧
    (copyStep start twoSym i s).alpha = s.alpha ∧
    (copyStep start twoSym i s).beta = s.beta ∧
    (copyStep start twoSym i s).remainingShifts = s.remainingShifts ∧
    (copyStep start twoSym i s).readCursor = s.readCursor ∧
    (∀ p, p < s.index → viewByte (copyStep start twoSym i s) p = viewByte s p) ∧
    viewByte (copyStep start twoSym i s) s.index = viewByte s (start + i) := by
  unfold copyStep
  by_cases hcond : twoSym < 4 ∧ s.index % 4 ≠ 0
  · obtain ⟨f1, f2, f3⟩ := flush_view s hInv
    rw [if_pos hcond]
    set s1 : DState := { s with buffer := commitWord s.buffer s.writeCursor s.currentValue }
      with hs1
    set b : Nat := s1.buffer (start + i) with hb
    have hbval : b = viewByte s (start + i) := f3 (start + i) (by omega)
    have hblt : b < 256 := by
      rw [hbval]
      exact viewByte_lt s hInv.2 _
    have hInv2 : StInv { s1 with writeCarryByte := b } := f1
    have hview2 : ∀ p, viewByte { s1 with writeCarryByte := b } p = viewByte s p := f2
    have hi2 : ({ s1 with writeCarryByte := b } : DState).index = s.index := rfl
    refine ⟨emitByte_inv _ _ hInv2, ?_, ?_, ?_, ?_, ?_, ?_, ?_⟩
    · rw [emitByte_index, hi2]
    · rw [emitByte_alpha]
    · rw [emitByte_beta]
    · rw [emitByte_rs]
    · rw [emitByte_rc]
    · intro p hp
      have := viewByte_emitByte_prev { s1 with writeCarryByte := b } b hInv2 p (by rw [hi2]; exact hp)
      rw [this, hview2 p]
    · have := viewByte_emitByte_last { s1 with writeCarryByte := b } b hInv2
      rw [hi2] at this
      rw [this, Nat.mod_eq_of_lt hblt, hbval]
  · rw [if_neg hcond]
    set b : Nat := s.buffer (start + i) with hb
    have hbval : b = viewByte s (start + i) := by
      rw [hb]
      refine buffer_view s hInv (start + i) ?_
      rcases not_and_or.mp hcond with hc | hc
      · left; omega
      · right; exact ⟨by omega, by omega⟩
    have hblt : b < 256 := by
      rw [hbval]
      exact viewByte_lt s hInv.2 _
    have hInv2 : StInv { s with writeCarryByte := b } := hInv
    have hview2 : ∀ p, viewByte { s with writeCarryByte := b } p = viewByte s p := fun p => rfl
    have hi2 : ({ s with writeCarryByte := b } : DState).index = s.index := rfl
    refine ⟨emitByte_inv _ _ hInv2, ?_, ?_, ?_, ?_, ?_, ?_, ?_⟩
    · rw [emitByte_index, hi2]
    · rw [emitByte_alpha]
    · rw [emitByte_beta]
    · rw [emitByte_rs]
    · rw [emitByte_rc]
    · intro p hp
      have := viewByte_emitByte_prev { s with writeCarryByte := b } b hInv2 p (by rw [hi2]; exact hp)
      rw [this, hview2 p]
    · have := viewByte_emitByte_last { s with writeCarryByte := b } b hInv2
      rw [hi2] at this
      rw [this, Nat.mod_eq_of_lt hblt, hbval]

theorem copyLoop_spec (start twoSym : Nat) (htwo : 0 < twoSym) (n : Nat) :
    ∀ i s, StInv s → s.index = start + twoSym + i →
    StInv (copyLoop start twoSym n i s) ∧
    (copyLoop start twoSym n i s).index = s.index + n ∧
    (copyLoop start twoSym n i s).alpha = s.alpha ∧
    (copyLoop start twoSym n i s).beta = s.beta ∧
    (copyLoop start twoSym n i s).remainingShifts = s.remainingShifts ∧
    (copyLoop start twoSym n i s).readCursor = s.readCursor ∧
    (∀ p, p < s.index → viewByte (copyLoop start twoSym n i s) p = viewByte s p) ∧
    (∀ j, j < n → viewByte (copyLoop start twoSym n i s) (s.index + j)
        = viewByte (copyLoop start twoSym n i s) (s.index + j - twoSym)) := by
  induction n with
  | zero =>
    intro i s h _
    exact ⟨h, rfl, rfl, rfl, rfl, rfl, fun p _ => rfl, fun j hj => absurd hj (by omega)⟩
  | succ n ih =>
    intro i s hInv hidx
    have hstep : copyLoop start twoSym (n + 1) i s
        = copyLoop start twoSym n (i + 1) (copyStep start twoSym i s) := rfl
    obtain ⟨c1, c2, c3, c4, c5, c6, cprev, clast⟩ := copyStep_spec start twoSym i htwo s hInv hidx
    obtain ⟨i1, i2, i3, i4, i5, i6, iprev, irep⟩ :=
      ih (i + 1) (copyStep start twoSym i s) c1 (by omega)
    rw [hstep]
    refine ⟨i1, by omega, by rw [i3, c3], by rw [i4, c4], by rw [i5, c5], by rw [i6, c6],
      ?_, ?_⟩
    · intro p hp
      rw [iprev p (by omega), cprev p hp]
    · intro j hj
      match j with
      | 0 =>
        have e1 : s.index + 0 = s.index := rfl
        have h1 : viewByte (copyLoop start twoSym n (i + 1) (copyStep start twoSym i s)) s.index
            = viewByte s (start + i) := by
          rw [iprev s.index (by omega), clast]
        have h2 : viewByte (copyLoop start twoSym n (i + 1) (copyStep start twoSym i s))
            (s.index - twoSym) = viewByte s (start + i) := by
          have hlt : s.index - twoSym < s.index := by omega
          rw [iprev _ (by omega), cprev _ hlt]
          have : s.index - twoSym = start + i := by omega
          rw [this]
        rw [e1, h1, h2]
      | Nat.succ m =>
        have e2 : s.index + (m + 1) = (copyStep start twoSym i s).index + m := by omega
        rw [e2]
        exact irep m (by omega)

theorem copyLoop_pattern (start twoSym n : Nat) (htwo : 0 < twoSym) (s : DState)
    (hInv : StInv s) (hidx : s.index = start + twoSym) :
    ∀ j, j < n → viewByte (copyLoop start twoSym n 0 s) (s.index + j)
      = viewByte s (start + j % twoSym) := by
  obtain ⟨_, _, _, _, _, _, fprev, frep⟩ :=
    copyLoop_spec start twoSym htwo n 0 s hInv (by omega)
  intro j
  induction j using Nat.strong_induction_on with
  | _ j sih =>
    intro hj
    rcases Nat.lt_or_ge j twoSym with hcase | hcase
    · have h1 := frep j hj
      have e1 : s.index + j - twoSym = start + j := by omega
      rw [h1, e1, fprev (start + j) (by omega), Nat.mod_eq_of_lt hcase]
    · have h1 := frep j hj
      have e1 : s.index + j - twoSym = s.index + (j - twoSym) := by omega
      rw [h1, e1, sih (j - twoSym) (by omega) (by omega)]
      have e2 : (j - twoSym) % twoSym = j % twoSym := by
        conv_rhs => rw [Nat.mod_eq_sub_mod hcase]
      rw [e2]

theorem tblA_bounds : ∀ i, i < 4 → 1 ≤ tbl (i * 4) ∧ tbl (i * 4) ≤ 8 := by decide

theorem tblB_bounds : ∀ j, j < 16 → 1 ≤ tbl (j * 4 + 16) ∧ tbl (j * 4 + 16) ≤ 15 := by decide

theorem primShift_bounds (alpha : Nat) : 1 ≤ primShift alpha ∧ primShift alpha ≤ 8 :=
  tblA_bounds (alpha / 2 % 4) (Nat.mod_lt _ (by norm_num))

theorem secShift_bounds (alpha : Nat) : 1 ≤ secShift alpha ∧ secShift alpha ≤ 15 :=
  tblB_bounds (codedRest alpha % 16) (Nat.mod_lt _ (by norm_num))

theorem emitStep_lit (s : DState) (h : s.alpha % 2 = 0) :
    emitStep s = EmitRes.next (s.alpha / 2 ^ 9)
      (emitByte { s with remainingShifts := s.remainingShifts - 9,
                         writeCarryByte := s.alpha / 2 % 256 } (s.alpha / 2 % 256)) := by
  unfold emitStep
  rw [if_pos h]

theorem emitStep_sent (s : DState) (h1 : s.alpha % 2 = 1) (h2 : CPRS_TERM ≤ codedSym s.alpha) :
    emitStep s = EmitRes.sentinel
      { s with remainingShifts :=
          s.remainingShifts - (primShift s.alpha + 7 + secShift s.alpha : Nat) } := by
  unfold emitStep
  rw [if_neg (by omega), if_pos h2]

theorem emitStep_run (s : DState) (h1 : s.alpha % 2 = 1) (h2 : codedSym s.alpha = 0) :
    emitStep s = EmitRes.next (codedRcb s.alpha)
      (runEmit (codedCount s.alpha)
        { s with remainingShifts :=
            s.remainingShifts - (primShift s.alpha + 7 + secShift s.alpha : Nat) }) := by
  have hterm : ¬ CPRS_TERM ≤ codedSym s.alpha := by rw [h2]; decide
  unfold emitStep
  rw [if_neg (by omega), if_neg hterm, if_pos h2]

theorem emitStep_copy (s : DState) (h1 : s.alpha % 2 = 1) (h2 : codedSym s.alpha ≠ 0)
    (h3 : codedSym s.alpha < CPRS_TERM) (h4 : 2 * codedSym s.alpha ≤ s.index) :
    emitStep s = EmitRes.next (codedRcb s.alpha)
      (copyLoop (s.index - 2 * codedSym s.alpha) (2 * codedSym s.alpha)
        (codedCount s.alpha) 0
        { s with remainingShifts :=
            s.remainingShifts - (primShift s.alpha + 7 + secShift s.alpha : Nat) }) := by
  unfold emitStep
  rw [if_neg (by omega), if_neg (by omega), if_neg h2, if_pos h4]

theorem emitStep_oob (s : DState) (h1 : s.alpha % 2 = 1) (h2 : codedSym s.alpha ≠ 0)
    (h3 : codedSym s.alpha < CPRS_TERM) (h4 : s.index < 2 * codedSym s.alpha) :
    emitStep s = EmitRes.oobCopy := by
  unfold emitStep
  rw [if_neg (by omega), if_neg (by omega), if_neg h2, if_neg (by omega)]

theorem runEmit_rs_rc (n : Nat) : ∀ s : DState,
    (runEmit n s).remainingShifts = s.remainingShifts ∧
    (runEmit n s).readCursor = s.readCursor := by
  induction n with
  | zero => intro s; exact ⟨rfl, rfl⟩
  | succ n ih =>
    intro s
    obtain ⟨a, b⟩ := ih (emitByte s s.writeCarryByte)
    exact ⟨by rw [runEmit, a, emitByte_rs], by rw [runEmit, b, emitByte_rc]⟩

theorem copyStep_rs_rc (start twoSym i : Nat) (s : DState) :
    (copyStep start twoSym i s).remainingShifts = s.remainingShifts ∧
    (copyStep start twoSym i s).readCursor = s.readCursor := by
  unfold copyStep
  by_cases hcond : twoSym < 4 ∧ s.index % 4 ≠ 0
  · rw [if_pos hcond]
    exact ⟨emitByte_rs _ _, emitByte_rc _ _⟩
  · rw [if_neg hcond]
    exact ⟨emitByte_rs _ _, emitByte_rc _ _⟩

theorem copyLoop_rs_rc (start twoSym : Nat) (n : Nat) : ∀ i (s : DState),
    (copyLoop start twoSym n i s).remainingShifts = s.remainingShifts ∧
    (copyLoop start twoSym n i s).readCursor = s.readCursor := by
  induction n with
  | zero => intro i s; exact ⟨rfl, rfl⟩
  | succ n ih =>
    intro i s
    obtain ⟨a, b⟩ := ih (i + 1) (copyStep start twoSym i s)
    obtain ⟨c, d⟩ := copyStep_rs_rc start twoSym i s
    exact ⟨by rw [copyLoop, a, c], by rw [copyLoop, b, d]⟩

theorem emitStep_next_shape (s : DState) (rcb : Nat) (s1 : DState)
    (h : emitStep s = EmitRes.next rcb s1) :
    s1.readCursor = s.readCursor ∧
    s.remainingShifts - 30 ≤ s1.remainingShifts ∧
    s1.remainingShifts ≤ s.remainingShifts - 9 := by
  by_cases h0 : s.alpha % 2 = 0
  · rw [emitStep_lit s h0] at h
    injection h with ha hb
    subst hb
    refine ⟨emitByte_rc _ _, ?_, ?_⟩
    · rw [emitByte_rs]
      show s.remainingShifts - 30 ≤ s.remainingShifts - 9
      omega
    · rw [emitByte_rs]
  · have h1 : s.alpha % 2 = 1 := by omega
    by_cases hs : CPRS_TERM ≤ codedSym s.alpha
    · rw [emitStep_sent s h1 hs] at h
      exact absurd h (by simp)
    · have hA := primShift_bounds s.alpha
      have hB := secShift_bounds s.alpha
      by_cases hz : codedSym s.alpha = 0
      · rw [emitStep_run s h1 hz] at h
        injection h with ha hb
        subst hb
        obtain ⟨a, b⟩ := runEmit_rs_rc (codedCount s.alpha)
          { s with remainingShifts :=
              s.remainingShifts - (primShift s.alpha + 7 + secShift s.alpha : Nat) }
        rw [b, a]
        refine ⟨rfl, ?_, ?_⟩ <;> simp <;> omega
      · by_cases hc : 2 * codedSym s.alpha ≤ s.index
        · rw [emitStep_copy s h1 hz (by omega) hc] at h
          injection h with ha hb
          subst hb
          obtain ⟨a, b⟩ := copyLoop_rs_rc (s.index - 2 * codedSym s.alpha)
            (2 * codedSym s.alpha) (codedCount s.alpha) 0
            { s with remainingShifts :=
                s.remainingShifts - (primShift s.alpha + 7 + secShift s.alpha : Nat) }
          rw [b, a]
          refine ⟨rfl, ?_, ?_⟩ <;> simp <;> omega
        · rw [emitStep_oob s h1 hz (by omega) (by omega)] at h
          exact absurd h (by simp)

theorem runLoop_no_formatErr (payload : List Nat) :
    ∀ fuel (s : DState), (runLoop payload fuel s).isFormatErr = false := by
  intro fuel
  induction fuel with
  | zero => intro s; rfl
  | succ fuel ih =>
    intro s
    cases hE : emitStep s with
    | sentinel s1 => simp [runLoop, hE, DRes.isFormatErr]
    | oobCopy => simp [runLoop, hE, DRes.isFormatErr]
    | next rcb s1 =>
      simp only [runLoop, hE]
      rcases hr : refill payload rcb s1 with _ | s2
      · simp [DRes.isFormatErr]
      · exact ih s2

theorem runLoop_no_fuelOut (payload : List Nat) :
    ∀ (fuel : Nat) (s : DState), 0 ≤ s.remainingShifts → s.readCursor ≤ payload.length →
    s.remainingShifts + 32 * ((payload.length : Int) - (s.readCursor : Int)) < 9 * (fuel : Int) →
    (runLoop payload fuel s).isFuelOut = false := by
  intro fuel
  induction fuel with
  | zero =>
    intro s h1 h2 h3
    exfalso
    omega
  | succ fuel ih =>
    intro s h1 h2 h3
    cases hE : emitStep s with
    | sentinel s1 => simp [runLoop, hE, DRes.isFuelOut]
    | oobCopy => simp [runLoop, hE, DRes.isFuelOut]
    | next rcb s1 =>
      obtain ⟨hrc, hlo, hhi⟩ := emitStep_next_shape s rcb s1 hE
      simp only [runLoop, hE]
      by_cases hr : s1.remainingShifts < 0
      · rcases hw : payload.get? s1.readCursor with _ | w
        · have : refill payload rcb s1 = none := by
            unfold refill
            rw [if_pos hr, hw]
          rw [this]
          simp [DRes.isFuelOut]
        · have hlen : s1.readCursor < payload.length := by
            by_contra hcon
            rw [List.get?_eq_none.mpr (by omega)] at hw
            cases hw
          have : refill payload rcb s1 = some
              { s1 with
                remainingShifts := s1.remainingShifts + 32
                beta := w
                readCursor := s1.readCursor + 1
                alpha := (w * 2 ^ (s1.remainingShifts + 32).toNat % 2 ^ 32) |||
                  s1.beta / 2 ^ (32 - (s1.remainingShifts + 32)).toNat } := by
            unfold refill
            rw [if_pos hr, hw]
          rw [this]
          refine ih _ (by simp; omega) (by simp; omega) ?_
          simp only []
          show s1.remainingShifts + 32 + 32 * ((payload.length : Int) - (s1.readCursor + 1 : Nat)) <
            9 * (fuel : Int)
          push_cast
          push_cast at h3
          omega
      · have : refill payload rcb s1 = some
            { s1 with alpha :=
                (s1.beta * 2 ^ s1.remainingShifts.toNat % 2 ^ 32) ||| rcb } := by
          unfold refill
          rw [if_neg hr]
        rw [this]
        refine ih _ (by simp; omega) (by simp; omega) ?_
        show s1.remainingShifts + 32 * ((payload.length : Int) - (s1.readCursor : Nat)) <
          9 * (fuel : Int)
        push_cast at h3
        omega

theorem spec_codeLenA_eq (alpha : Nat) : spec_codeLenA alpha = primShift alpha := by
  show tbl (4 * (alpha / 2 % 4)) = tbl ((alpha / 2 % 4) * 4)
  rw [Nat.mul_comm]

theorem primShift_mod (alpha : Nat) : primShift alpha % 256 = primShift alpha :=
  Nat.mod_eq_of_lt (by have := primShift_bounds alpha; omega)

theorem secShift_mod (alpha : Nat) : secShift alpha % 256 = secShift alpha :=
  Nat.mod_eq_of_lt (by have := secShift_bounds alpha; omega)

theorem spec_rest_eq (alpha : Nat) : spec_rest alpha = codedRest alpha := by
  unfold spec_rest codedRest
  rw [spec_codeLenA_eq, primShift_mod]
  norm_num

theorem spec_codeLenB_eq (alpha : Nat) : spec_codeLenB alpha = secShift alpha := by
  show tbl (4 * (4 + spec_rest alpha % 16)) = tbl ((codedRest alpha % 16) * 4 + 16)
  rw [spec_rest_eq]
  congr 1
  ring

theorem spec_sym_eq (alpha : Nat) : spec_sym alpha = codedSym alpha := by
  unfold spec_sym codedSym spec_high
  rw [spec_codeLenB_eq, secShift_mod, spec_rest_eq]
  have hidx : (spec_secondaryRow alpha).col2 = tbl ((codedRest alpha % 16) * 4 + 16 + 2) := by
    show tbl (4 * (4 + spec_rest alpha % 16) + 2) = _
    rw [spec_rest_eq]
    congr 1
    ring
  rw [hidx]
  norm_num

theorem spec_count_eq (alpha : Nat) : spec_count alpha = codedCount alpha := by
  unfold spec_count codedCount
  rw [spec_codeLenA_eq, primShift_mod]
  have h1 : (spec_primaryRow alpha).col2 = tbl ((alpha / 2 % 4) * 4 + 2) := by
    show tbl (4 * (alpha / 2 % 4) + 2) = _
    congr 1
    ring
  have h2 : (spec_secondaryRow alpha).col1 = tbl ((codedRest alpha % 16) * 4 + 16 + 1) := by
    show tbl (4 * (4 + spec_rest alpha % 16) + 1) = _
    rw [spec_rest_eq]
    congr 1
    ring
  rw [h1, h2]
  norm_num

theorem spec_bits_eq (alpha : Nat) : spec_bits alpha = primShift alpha + 7 + secShift alpha := by
  unfold spec_bits
  rw [spec_codeLenA_eq, spec_codeLenB_eq]

theorem decompress_isFormatErr_iff (data : List Nat) (sizeBytes junkByte : Nat) :
    (decompress data sizeBytes junkByte).isFormatErr = true ↔ ¬ structValid data sizeBytes := by
  unfold decompress structValid
  split_ifs with h1 h2 h3
  · refine ⟨fun _ hv => h1 hv.1, fun _ => rfl⟩
  · refine ⟨fun _ hv => by omega, fun _ => rfl⟩
  · refine ⟨fun _ hv => ?_, fun _ => rfl⟩
    rcases h3 with h3 | h3
    · exact h3 hv.2.2.1
    · exact h3 hv.2.2.2
  · rw [runLoop_no_formatErr]
    push_neg at h3
    constructor
    · intro hcon
      cases hcon
    · intro hcon
      exact absurd ⟨by omega, by omega, h3.1, h3.2⟩ hcon

theorem decompress_no_fuelOut (data : List Nat) (sizeBytes junkByte : Nat) :
    (decompress data sizeBytes junkByte).isFuelOut = false := by
  unfold decompress
  split_ifs with h1 h2 h3
  · rfl
  · rfl
  · rfl
  · refine runLoop_no_fuelOut (payloadWords data sizeBytes)
      (4 * (payloadWords data sizeBytes).length + 6) (startState data junkByte)
      (by norm_num [startState]) (by norm_num [startState]) ?_
    show (32 : Int) + 32 * (((payloadWords data sizeBytes).length : Int) - ((0 : Nat) : Int))
      < 9 * ((4 * (payloadWords data sizeBytes).length + 6 : Nat) : Int)
    push_cast
    omega

/-- Structurally valid container whose first decoded step is a run symbol
(`sym = 0`, count 2) before any byte has been emitted; its second step is the
terminal sentinel.  Seed window `0xFFFFC401`. -/
def runFirstContainer : List Nat := [CPRS_SIG, 0, 2, 0xFFFFC401, 1, CPRS_SIG]

/-- The same two-step stream with the declared decompressed size (word 2)
set to 99 although only 2 bytes are emitted. -/
def wrongSizeContainer : List Nat := [CPRS_SIG, 0, 99, 0xFFFFC401, 1, CPRS_SIG]

/-- Structurally valid container with an empty payload whose seed words
encode only literals: the bit supply runs out before any sentinel. -/
def truncatedContainer : List Nat := [CPRS_SIG, 0, 9, 0, 0, CPRS_SIG]

/-- Container encoding a single literal `0xAB` followed by a coded symbol
with `sym = 1` (byte distance `sym*2 = 2`) and repeat count 5: the copy
source `writeIndex - sym*2 = 1 - 2` lies before the output buffer. -/
def copyUnderflowContainer : List Nat := [CPRS_SIG, 0, 6, 0x21756, 0, CPRS_SIG]

/-- C1: for every coded-symbol step (bit 0 of the window is 1), the decoder
selects the primary row by bits [1..2] of the window, computes
`rest = (window >> 3) >> codeLenA`, selects the secondary row by the low 4
bits of `rest` from the block starting at row 4, and then the symbol value
equals `secondaryRow.col2 + ((rest >> 4) & ((1<<codeLenB)-1))`, the repeat
count equals
`primaryRow.col2 + ((window>>3) & ((1<<codeLenA)-1)) + ((secondaryRow.col1 + 11) >> 3)`,
and exactly `codeLenA + 7 + codeLenB` bits are consumed from the bit
window. -/
theorem coded_step_formulas (s : DState)
    (hodd : s.alpha % 2 = 1)
    (hterm : codedSym s.alpha < CPRS_TERM)
    (hsrc : codedSym s.alpha = 0 ∨ 2 * codedSym s.alpha ≤ s.index) :
    codedSym s.alpha = spec_sym s.alpha ∧
    codedCount s.alpha = spec_count s.alpha ∧
    ∃ s1, emitStep s = EmitRes.next (codedRcb s.alpha) s1 ∧
      s1.remainingShifts = s.remainingShifts - spec_bits s.alpha ∧
      s1.readCursor = s.readCursor := by
  refine ⟨(spec_sym_eq s.alpha).symm, (spec_count_eq s.alpha).symm, ?_⟩
  by_cases hz : codedSym s.alpha = 0
  · refine ⟨_, emitStep_run s hodd hz, ?_, ?_⟩
    · obtain ⟨a, _⟩ := runEmit_rs_rc (codedCount s.alpha)
        { s with remainingShifts :=
            s.remainingShifts - (primShift s.alpha + 7 + secShift s.alpha : Nat) }
      rw [a, spec_bits_eq]
    · exact (runEmit_rs_rc _ _).2
  · have hc := Or.resolve_left hsrc hz
    refine ⟨_, emitStep_copy s hodd hz hterm hc, ?_, ?_⟩
    · obtain ⟨a, _⟩ := copyLoop_rs_rc (s.index - 2 * codedSym s.alpha)
        (2 * codedSym s.alpha) (codedCount s.alpha) 0
        { s with remainingShifts :=
            s.remainingShifts - (primShift s.alpha + 7 + secShift s.alpha : Nat) }
      rw [a, spec_bits_eq]
    · exact (copyLoop_rs_rc _ _ _ _ _).2

/-- Concrete coded-symbol state for the C1 witness: window `0x10B` decodes
`sym = 1`, count 5, from primary row 1 and secondary row 0. -/
def c1w : DState :=
  { alpha := 0x10B, beta := 0, remainingShifts := 23, readCursor := 0,
    buffer := fun _ => 0, currentValue := 0xB7B7, index := 2, writeCursor := 0,
    writeCarryByte := 0xB7 }

/-- Witness for C1 at the concrete coded window `0x10B`. -/
theorem coded_step_formulas_witness :
    (c1w.alpha % 2 = 1 ∧ codedSym c1w.alpha < CPRS_TERM ∧
      2 * codedSym c1w.alpha ≤ c1w.index) ∧
    (codedSym c1w.alpha = spec_sym c1w.alpha ∧
     codedCount c1w.alpha = spec_count c1w.alpha ∧
     ∃ s1, emitStep c1w = EmitRes.next (codedRcb c1w.alpha) s1 ∧
       s1.remainingShifts = c1w.remainingShifts - spec_bits c1w.alpha ∧
       s1.readCursor = c1w.readCursor) :=
  ⟨⟨by decide, by decide, by decide⟩,
    coded_step_formulas c1w (by decide) (by decide) (Or.inr (by decide))⟩

/-- C3: for every literal step (bit 0 of the window is 0), exactly 9 bits
are consumed from the bit window, the emitted byte equals
`(window >> 1) & 0xFF`, and that byte becomes the new `lastByte` used by
subsequent run emissions. -/
theorem literal_step_correct (s : DState) (hInv : StInv s) (heven : s.alpha % 2 = 0) :
    ∃ s1, emitStep s = EmitRes.next (s.alpha / 2 ^ 9) s1 ∧
      s1.remainingShifts = s.remainingShifts - 9 ∧
      s1.readCursor = s.readCursor ∧
      s1.writeCarryByte = s.alpha / 2 % 256 ∧
      s1.index = s.index + 1 ∧
      viewByte s1 s.index = s.alpha / 2 % 256 ∧
      (∀ p, p < s.index → viewByte s1 p = viewByte s p) := by
  refine ⟨_, emitStep_lit s heven, ?_, ?_, ?_, ?_, ?_, ?_⟩
  · rw [emitByte_rs]
  · rw [emitByte_rc]
  · rw [emitByte_wcb]
  · rw [emitByte_index]
  · have hX :
        StInv { s with remainingShifts := s.remainingShifts - 9, writeCarryByte := s.alpha / 2 % 256 } :=
      hInv
    have h := viewByte_emitByte_last
      { s with remainingShifts := s.remainingShifts - 9, writeCarryByte := s.alpha / 2 % 256 }
      (s.alpha / 2 % 256) hX
    have hmm : s.alpha / 2 % 256 % 256 = s.alpha / 2 % 256 := by omega
    rw [hmm] at h
    exact h
  · intro p hp
    have hX :
        StInv { s with remainingShifts := s.remainingShifts - 9, writeCarryByte := s.alpha / 2 % 256 } :=
      hInv
    exact viewByte_emitByte_prev _ _ hX p hp

/-- Concrete literal state for the C3 witness: window `0x156` encodes the
literal byte `0xAB`. -/
def c3w : DState :=
  { alpha := 0x156, beta := 0, remainingShifts := 32, readCursor := 0,
    buffer := fun _ => 0, currentValue := 0, index := 0, writeCursor := 0,
    writeCarryByte := 0 }

/-- Witness for C3 at the concrete literal window `0x156`. -/
theorem literal_step_correct_witness :
    (StInv c3w ∧ c3w.alpha % 2 = 0) ∧
    (∃ s1, emitStep c3w = EmitRes.next (c3w.alpha / 2 ^ 9) s1 ∧
      s1.remainingShifts = c3w.remainingShifts - 9 ∧
      s1.readCursor = c3w.readCursor ∧
      s1.writeCarryByte = c3w.alpha / 2 % 256 ∧
      s1.index = c3w.index + 1 ∧
      viewByte s1 c3w.index = c3w.alpha / 2 % 256 ∧
      (∀ p, p < c3w.index → viewByte s1 p = viewByte c3w p)) :=
  ⟨⟨⟨rfl, fun p => by show (0 : Nat) < 256; decide⟩, by decide⟩,
    literal_step_correct c3w ⟨rfl, fun p => by show (0 : Nat) < 256; decide⟩ (by decide)⟩

/-- C4: for every coded-symbol step whose decoded symbol value is 0 with
repeat count `k`, the decoder emits exactly `k` copies of the immediately
preceding literal byte (`lastByte`), each emitted copy advancing
`writeIndex` by one. -/
theorem run_step_correct (s : DState) (hInv : StInv s) (hodd : s.alpha % 2 = 1)
    (hzero : codedSym s.alpha = 0) (hlb : s.writeCarryByte < 256) :
    ∃ s1, emitStep s = EmitRes.next (codedRcb s.alpha) s1 ∧
      s1.index = s.index + codedCount s.alpha ∧
      s1.writeCarryByte = s.writeCarryByte ∧
      (∀ i, i < codedCount s.alpha → viewByte s1 (s.index + i) = s.writeCarryByte) ∧
      (∀ p, p < s.index → viewByte s1 p = viewByte s p) := by
  refine ⟨_, emitStep_run s hodd hzero, ?_, ?_, ?_, ?_⟩
  all_goals
    have hX : StInv { s with remainingShifts :=
        s.remainingShifts - (primShift s.alpha + 7 + secShift s.alpha : Nat) } := hInv
    obtain ⟨r1, r2, r3, r4, r5, r6, r7, rprev, rcop⟩ :=
      runEmit_spec (codedCount s.alpha)
        { s with remainingShifts :=
            s.remainingShifts - (primShift s.alpha + 7 + secShift s.alpha : Nat) } hX
  · rw [r2]
  · rw [r7]
  · intro i hi
    have h := rcop i hi
    rw [Nat.mod_eq_of_lt hlb] at h
    exact h
  · intro p hp
    exact rprev p hp

/-- Concrete run state for the C4 witness: window `0xFFFFC401` decodes
`sym = 0` with count 2, and the pending `lastByte` is `0x42`. -/
def c4w : DState :=
  { alpha := 0xFFFFC401, beta := 0, remainingShifts := 32, readCursor := 0,
    buffer := fun _ => 0, currentValue := 0, index := 0, writeCursor := 0,
    writeCarryByte := 0x42 }

/-- Witness for C4 at the concrete run window `0xFFFFC401`. -/
theorem run_step_correct_witness :
    (StInv c4w ∧ c4w.alpha % 2 = 1 ∧ codedSym c4w.alpha = 0 ∧ c4w.writeCarryByte < 256) ∧
    (∃ s1, emitStep c4w = EmitRes.next (codedRcb c4w.alpha) s1 ∧
      s1.index = c4w.index + codedCount c4w.alpha ∧
      s1.writeCarryByte = c4w.writeCarryByte ∧
      (∀ i, i < codedCount c4w.alpha → viewByte s1 (c4w.index + i) = c4w.writeCarryByte) ∧
      (∀ p, p < c4w.index → viewByte s1 p = viewByte c4w p)) :=
  ⟨⟨⟨rfl, fun p => by show (0 : Nat) < 256; decide⟩, by decide, by decide, by decide⟩,
    run_step_correct c4w ⟨rfl, fun p => by show (0 : Nat) < 256; decide⟩
      (by decide) (by decide) (by decide)⟩

/-- C2 (amended): for every back-reference step (decoded symbol `sym` with
`0 < sym < 0x10002`, repeat count `n`, and source in bounds,
`sym*2 ≤ writeIndex`), the decoder emits `n` bytes taken from output
positions starting at `writeIndex - sym*2`, copying strictly one byte at a
time in increasing order, so that when source and destination overlap
(`sym*2 < n`) each copied byte immediately becomes a valid source for a
later byte of the same operation and the repeating pattern with period
`sym*2` is reproduced.  The claim's "single preceding byte at distance 1"
example is impossible: the byte distance is `sym*2 ≥ 2`, so after a single
emitted byte the source lies before the buffer (see the counterexample). -/
theorem back_reference_copy_correct (s : DState) (hInv : StInv s) (hodd : s.alpha % 2 = 1)
    (hnz : codedSym s.alpha ≠ 0) (hterm : codedSym s.alpha < CPRS_TERM)
    (hsrc : 2 * codedSym s.alpha ≤ s.index) :
    ∃ s1, emitStep s = EmitRes.next (codedRcb s.alpha) s1 ∧
      s1.index = s.index + codedCount s.alpha ∧
      (∀ p, p < s.index → viewByte s1 p = viewByte s p) ∧
      (∀ j, j < codedCount s.alpha →
        viewByte s1 (s.index + j)
          = viewByte s (s.index - 2 * codedSym s.alpha + j % (2 * codedSym s.alpha))) := by
  have htwo : 0 < 2 * codedSym s.alpha := by omega
  have hX : StInv ({ s with remainingShifts :=
      s.remainingShifts - (primShift s.alpha + 7 + secShift s.alpha : Nat) } : DState) := hInv
  obtain ⟨c1, c2, c3, c4, c5, c6, cprev, crep⟩ :=
    copyLoop_spec (s.index - 2 * codedSym s.alpha) (2 * codedSym s.alpha) htwo
      (codedCount s.alpha) 0
      { s with remainingShifts :=
          s.remainingShifts - (primShift s.alpha + 7 + secShift s.alpha : Nat) }
      hX (by show s.index = _; omega)
  have hpat :=
    copyLoop_pattern (s.index - 2 * codedSym s.alpha) (2 * codedSym s.alpha)
      (codedCount s.alpha) htwo
      { s with remainingShifts :=
          s.remainingShifts - (primShift s.alpha + 7 + secShift s.alpha : Nat) }
      hX (by show s.index = _; omega)
  exact ⟨_, emitStep_copy s hodd hnz hterm hsrc, c2, cprev, hpat⟩

/-- Concrete back-reference state for the C2 witness: two pending bytes
`0x5A, 0x5A` in the accumulator and the coded window `0x10B` (`sym = 1`,
byte distance 2, count 5): the overlapping copy appends five more `0x5A`. -/
def c2w : DState :=
  { alpha := 0x10B, beta := 0, remainingShifts := 23, readCursor := 0,
    buffer := fun _ => 0, currentValue := 0x5A5A, index := 2, writeCursor := 0,
    writeCarryByte := 0x5A }

/-- Witness for C2 (amended) at the concrete state `c2w`. -/
theorem back_reference_copy_correct_witness :
    (StInv c2w ∧ c2w.alpha % 2 = 1 ∧ codedSym c2w.alpha ≠ 0 ∧
      codedSym c2w.alpha < CPRS_TERM ∧ 2 * codedSym c2w.alpha ≤ c2w.index) ∧
    (∃ s1, emitStep c2w = EmitRes.next (codedRcb c2w.alpha) s1 ∧
      s1.index = c2w.index + codedCount c2w.alpha ∧
      (∀ p, p < c2w.index → viewByte s1 p = viewByte c2w p) ∧
      (∀ j, j < codedCount c2w.alpha →
        viewByte s1 (c2w.index + j)
          = viewByte c2w (c2w.index - 2 * codedSym c2w.alpha + j % (2 * codedSym c2w.alpha)))) :=
  ⟨⟨⟨rfl, fun p => by show (0 : Nat) < 256; decide⟩, by decide, by decide, by decide, by decide⟩,
    back_reference_copy_correct c2w ⟨rfl, fun p => by show (0 : Nat) < 256; decide⟩
      (by decide) (by decide) (by decide) (by decide)⟩

/-- Counterexample to C2 as stated: in `copyUnderflowContainer` the stream
encodes a single preceding literal byte `0xAB` followed by a copy code with
`sym = 1` (the only code with byte distance 2, the minimum possible — a
distance of one byte is not even expressible since the distance is `sym*2`)
and repeat count 5.  Its source position `writeIndex - sym*2 = 1 - 2`
underflows the output buffer, so decoding fails instead of expanding to
`b,b,b,b,b`. -/
theorem copy_distance_one_single_byte_fails :
    structValid copyUnderflowContainer 24 ∧
    decompress copyUnderflowContainer 24 0xAB = DRes.corrupt ∧
    decompressBytes copyUnderflowContainer 24 0xAB ≠
      some [0xAB, 0xAB, 0xAB, 0xAB, 0xAB, 0xAB] :=
  ⟨by decide, by rfl, by decide⟩

/-- C5: when a decoded symbol value is at least `0x10002`, `decompress` ends
successfully and immediately: it reads no further symbols (the conclusion
holds for every payload, so any remaining payload words are ignored),
commits the partially filled accumulator word to the output buffer when
`writeIndex & 3 ≠ 0`, and returns with the size output equal to the total
number of bytes emitted so far. -/
theorem sentinel_step_terminates (s : DState) (payload : List Nat) (fuel : Nat)
    (hodd : s.alpha % 2 = 1) (hsent : CPRS_TERM ≤ codedSym s.alpha) :
    runLoop payload (fuel + 1) s =
      DRes.ok s.index
        (if s.index % 4 ≠ 0 then commitWord s.buffer s.writeCursor s.currentValue
         else s.buffer) := by
  have h := emitStep_sent s hodd hsent
  simp only [runLoop, h]

/-- Concrete sentinel state for the C5 witness: window `0x7FFFF1` decodes
`sym = 0x10003`, with two pending accumulator bytes to commit. -/
def c5w : DState :=
  { alpha := 0x7FFFF1, beta := 0, remainingShifts := 22, readCursor := 0,
    buffer := fun _ => 0, currentValue := 0x0B0B, index := 2, writeCursor := 0,
    writeCarryByte := 0x0B }

/-- Witness for C5 at the concrete state `c5w` with a non-empty leftover
payload that is ignored. -/
theorem sentinel_step_terminates_witness :
    (c5w.alpha % 2 = 1 ∧ CPRS_TERM ≤ codedSym c5w.alpha) ∧
    runLoop [0xDEAD, 0xBEEF] (7 + 1) c5w =
      DRes.ok c5w.index
        (if c5w.index % 4 ≠ 0 then commitWord c5w.buffer c5w.writeCursor c5w.currentValue
         else c5w.buffer) :=
  ⟨⟨by decide, by decide⟩,
    sentinel_step_terminates c5w [0xDEAD, 0xBEEF] 7 (by decide) (by decide)⟩

/-- C6 (amended): whenever the live-bit counter becomes negative after a
consumption, the bitstream reader adds 32 to it, carries the old lookahead
shifted down by `32 - counter`, loads the lookahead register from the next
payload word (advancing the read cursor), and reconstructs the current
window as the NEWLY LOADED lookahead shifted left by the updated counter,
OR-ed with the carry taken from the old lookahead; when the counter stays
non-negative, the window is rebuilt as `(lookahead << counter) | leftover`
without advancing the cursor. -/
theorem refill_matches_spec (payload : List Nat) (leftover : Nat) (s : DState) :
    refill payload leftover s = refillSpec payload leftover s := by
  unfold refill refillSpec
  simp only [Nat.shiftLeft_eq, Nat.shiftRight_eq_div_pow]

/-- Decoder state for the C6 counterexample: old lookahead zero, counter -1. -/
def c6w : DState :=
  { alpha := 0, beta := 0, remainingShifts := -1, readCursor := 0,
    buffer := fun _ => 0, currentValue := 0, index := 0, writeCursor := 0,
    writeCarryByte := 0 }

/-- Counterexample to C6 as stated: with old lookahead `0`, counter `-1` and
next payload word `1`, the refill produces the window `2^31` (built from the
newly loaded word), while the claim's "old lookahead shifted, OR-ed with the
carry" formula yields `0`. -/
theorem refill_window_not_from_old_lookahead :
    (refill [1] 0 c6w).map DState.alpha = some (2 ^ 31) ∧
    refillClaimWindow c6w.beta (c6w.remainingShifts + 32) = 0 ∧
    (2 ^ 31 : Nat) ≠ 0 :=
  ⟨by rfl, by decide, by decide⟩

/-- C7: `decompress` fails with a format error, before decoding any symbol
and returning no output, exactly when the container is structurally
invalid: total byte length not a multiple of 4, word count at most 5, or
first or last word differing from the fixed signature constant; every
container passing these three checks proceeds to decoding. -/
theorem format_error_exactly_on_invalid (data : List Nat) (sizeBytes junkByte : Nat) :
    (decompress data sizeBytes junkByte).isFormatErr = true ↔ ¬ structValid data sizeBytes :=
  decompress_isFormatErr_iff data sizeBytes junkByte

/-- C8 (amended): for every container (and every value of the uninitialized
last byte), `decompress` terminates: the fuel bound `4 * |payload| + 6`
strictly dominates the number of decode-loop trips the bit supply allows,
so the fuel is never exhausted — decoding always ends in a format error, a
success at the sentinel, or a corrupt-stream failure. -/
theorem decompress_terminates (data : List Nat) (sizeBytes junkByte : Nat) :
    (decompress data sizeBytes junkByte).isFuelOut = false :=
  decompress_no_fuelOut data sizeBytes junkByte

/-- Counterexample to C8 as stated: `wrongSizeContainer` is structurally
valid and decodes to completion through the sentinel, but it emits 2 bytes
while its header word 2 (`decompressedSize`) declares 99; the decoder never
checks the two against each other. -/
theorem declared_size_not_produced :
    structValid wrongSizeContainer 24 ∧
    wrongSizeContainer.getD 2 0 = 99 ∧
    (decompress wrongSizeContainer 24 0).sizeOut = some 2 ∧
    (2 : Nat) ≠ 99 :=
  ⟨by decide, by decide, by rfl, by decide⟩

/-- C9: for every structurally valid container on which decoding does not
reach the sentinel (in particular, whose payload is truncated before a
sentinel symbol), `decompress` fails with the corrupt-stream result; the
embedded reader consumes payload words through a bounds-checked lookup and
therefore never reads a word beyond the last payload word. -/
theorem truncated_stream_corrupt (data : List Nat) (sizeBytes junkByte : Nat)
    (hvalid : structValid data sizeBytes)
    (hnotok : (decompress data sizeBytes junkByte).isOk = false) :
    decompress data sizeBytes junkByte = DRes.corrupt := by
  cases h : decompress data sizeBytes junkByte with
  | ok n buf =>
    rw [h] at hnotok
    cases hnotok
  | corrupt => rfl
  | fuelOut =>
    have hfo := decompress_no_fuelOut data sizeBytes junkByte
    rw [h] at hfo
    cases hfo
  | formatErr =>
    have hfe := decompress_isFormatErr_iff data sizeBytes junkByte
    rw [h] at hfe
    exact absurd hvalid (hfe.mp rfl)

/-- Witness for C9: `truncatedContainer` has an empty payload, its seed
words encode literals only, and the fourth literal exhausts the bit supply:
decoding ends in the corrupt-stream failure. -/
theorem truncated_stream_corrupt_witness :
    (structValid truncatedContainer 24 ∧ (decompress truncatedContainer 24 0).isOk = false) ∧
    decompress truncatedContainer 24 0 = DRes.corrupt :=
  ⟨⟨by decide, by rfl⟩, truncated_stream_corrupt truncatedContainer 24 0 (by decide) (by rfl)⟩

/-- C10: there exist structurally valid containers whose first decoded step
is a run symbol (`sym = 0` before any literal or back-reference byte has
been emitted); the bytes emitted by the run come from the uninitialized
`writeCarryByte` local, so the output is not determined by the input bytes:
the same container decoded with residue 0 and with residue 1 in that local
yields different outputs. -/
theorem uninitialized_lastByte_nondeterminism :
    structValid runFirstContainer 24 ∧
    runFirstContainer.getD 3 0 % 2 = 1 ∧
    codedSym (runFirstContainer.getD 3 0) = 0 ∧
    decompressBytes runFirstContainer 24 0 = some [0, 0] ∧
    decompressBytes runFirstContainer 24 1 = some [1, 1] ∧
    decompressBytes runFirstContainer 24 0 ≠ decompressBytes runFirstContainer 24 1 :=
  ⟨by decide, by decide, by decide, by rfl, by rfl, by decide⟩
